import Mathlib

/-
Verification development for rdkit/Chem/EnumerateStereoisomers.py.

The Python module is shallowly embedded: molecules become explicit records,
in-place mutation becomes explicit state passing, the Python generator
protocol becomes list-producing functions (with a fuel argument where the
source loop's iteration count is unbounded), and the external chemistry
toolkit collaborators (Chem.FindPotentialStereoBonds, Chem.AddHs,
rdDistGeom.EmbedMolecule, Python's hash and random.Random) are parameters,
since only this one file of the repository is given as source.
-/

namespace RDKit

/-- Chirality tag values on an atom (Chem.ChiralType subset used by the source). -/
inductive ChiralType where
  | CHI_UNSPECIFIED
  | CHI_TETRAHEDRAL_CW
  | CHI_TETRAHEDRAL_CCW
  | CHI_OTHER
deriving DecidableEq, Inhabited

/-- Bond stereo values (Chem.BondStereo subset relevant to the source). -/
inductive BondStereo where
  | STEREONONE
  | STEREOANY
  | STEREOCIS
  | STEREOTRANS
  | STEREOZ
  | STEREOE
deriving DecidableEq, Inhabited

/-- An atom, carrying exactly the fields the source reads or writes:
atomic number and degree (seed derivation), the boolean standing for
HasProp("_ChiralityPossible"), and the chirality tag. -/
structure Atom where
  atomicNum : Nat
  degree : Nat
  chiralityPossible : Bool
  chiralTag : ChiralType
deriving DecidableEq, Inhabited

/-- A bond; the source only reads and writes its stereo flag. -/
structure Bond where
  stereo : BondStereo
deriving DecidableEq, Inhabited

/-- A conformer: one position per atom. The coordinate type C is opaque to
the enumeration core (the source only copies positions around). -/
structure Conformer (C : Type) where
  positions : List C
deriving DecidableEq

instance {C : Type} : Inhabited (Conformer C) := ⟨⟨[]⟩⟩

/-- A molecule value. Python object mutation is modelled by replacing the
value; Chem.Mol(m) (graph copy) is the identity on values. -/
structure Mol (C : Type) where
  atoms : List Atom
  bonds : List Bond
  conformers : List (Conformer C)
deriving DecidableEq

instance {C : Type} : Inhabited (Mol C) := ⟨⟨[], [], []⟩⟩

/-- A Python random.Random instance: call index and bit count to raw value.
Call t of getrandbits(k) returns (g t k) reduced below 2^k. -/
def RandGen : Type := Nat → Nat → Nat

/-- Semantics of rand.getrandbits(k) at call index t: a value in [0, 2^k). -/
def getrandbits (g : RandGen) (t k : Nat) : Nat := g t k % 2 ^ k

/-- External collaborators consumed by the source through narrow interfaces:
stereo-bond detection, AddHs, the 3-D embedding oracle (returning a cid and
the mutated hydrogen-added molecule), Python's hash on the sorted pair list,
and the random.Random constructor. -/
structure ExternalFns (C : Type) where
  detect : Mol C → Mol C
  addHs : Mol C → Mol C
  embedMolecule : Mol C → Nat → Int × Mol C
  pyhash : List (Nat × Nat) → Int
  mkRandom : Int → RandGen

/-- Options record from the source. The source stores the four arguments
verbatim; maxIsomers is a Python int, so it is an Int here. The rand field
holds either a generator instance (Sum.inl) or a seed value (Sum.inr). -/
structure StereoEnumerationOptions where
  tryEmbedding : Bool := false
  onlyUnassigned : Bool := true
  maxIsomers : Int := 1024
  rand : Option (Sum RandGen Int) := none

/-- The body of StereoEnumerationOptions.__init__ translated as a fallible
constructor: the source performs four plain attribute assignments and
contains no validation and no raise statement, so every call returns ok. -/
def StereoEnumerationOptionsInit (tryEmbedding : Bool) (onlyUnassigned : Bool)
    (maxIsomers : Int) (rand : Option (Sum RandGen Int)) :
    Except String StereoEnumerationOptions :=
  Except.ok { tryEmbedding := tryEmbedding, onlyUnassigned := onlyUnassigned,
              maxIsomers := maxIsomers, rand := rand }

/-- A stereo element flipper: _AtomFlipper and _BondFlipper hold a reference
to one atom or bond; here the reference is the index into the molecule. -/
inductive Flipper where
  | atom (idx : Nat)
  | bond (idx : Nat)
deriving DecidableEq, Inhabited

/-- One flip: _AtomFlipper.flip sets the chiral tag to CW when the flag is
set and CCW otherwise; _BondFlipper.flip sets STEREOCIS or STEREOTRANS. -/
def flipOne {C : Type} (m : Mol C) : Flipper → Bool → Mol C
  | Flipper.atom i, flag =>
    let a := m.atoms.getD i default
    let a2 := { a with chiralTag := if flag then ChiralType.CHI_TETRAHEDRAL_CW
                       else ChiralType.CHI_TETRAHEDRAL_CCW }
    { m with atoms := m.atoms.set i a2 }
  | Flipper.bond i, flag =>
    let b2 : Bond := { stereo := if flag then BondStereo.STEREOCIS
                       else BondStereo.STEREOTRANS }
    { m with bonds := m.bonds.set i b2 }

/-- The driver's inner loop "for i in range(nCenters): flippers[i].flip(bool(bitflag & (1 << i)))",
with the running start position generalized for reasoning. -/
def applyBitsAux {C : Type} (k : Nat) : List Flipper → Nat → Mol C → Mol C
  | [], _, m => m
  | f :: fs, i, m => applyBitsAux k fs (i + 1) (flipOne m f (k.testBit i))

/-- Apply configuration index k to a molecule through the flipper list. -/
def applyBits {C : Type} (flippers : List Flipper) (k : Nat) (m : Mol C) : Mol C :=
  applyBitsAux k flippers 0 m

/-- Atom-flipper eligibility test from _getFlippers: the atom has the
_ChiralityPossible flag and, under onlyUnassigned, an unspecified tag. -/
def atomEligible (options : StereoEnumerationOptions) (a : Atom) : Bool :=
  a.chiralityPossible &&
    (!options.onlyUnassigned || decide (a.chiralTag = ChiralType.CHI_UNSPECIFIED))

/-- Bond-flipper eligibility test from _getFlippers: stereo is not
STEREONONE and, under onlyUnassigned, is the STEREOANY marker. -/
def bondEligible (options : StereoEnumerationOptions) (b : Bond) : Bool :=
  !decide (b.stereo = BondStereo.STEREONONE) &&
    (!options.onlyUnassigned || decide (b.stereo = BondStereo.STEREOANY))

/-- Discovery of the eligible-element list on an already-detected molecule:
atoms in ascending index order, then bonds in ascending index order,
exactly as the two loops of _getFlippers. (The call to
Chem.FindPotentialStereoBonds that opens _getFlippers is made explicit in
getFlippersFull below, since it mutates the molecule.) -/
def getFlippers {C : Type} (mol : Mol C) (options : StereoEnumerationOptions) :
    List Flipper :=
  ((List.range mol.atoms.length).filter
      (fun i => atomEligible options (mol.atoms.getD i default))).map Flipper.atom
    ++ ((List.range mol.bonds.length).filter
      (fun i => bondEligible options (mol.bonds.getD i default))).map Flipper.bond

/-- Full _getFlippers: first Chem.FindPotentialStereoBonds(mol) (in-place
mutation, so the updated molecule is returned), then element discovery. -/
def getFlippersFull {C : Type} (E : ExternalFns C) (mol : Mol C)
    (options : StereoEnumerationOptions) : Mol C × List Flipper :=
  let m2 := E.detect mol
  (m2, getFlippers m2 options)

/-- The pair (a.GetDegree(), a.GetAtomicNum()) read off every atom for the
deterministic seed derivation. -/
def atomPairs {C : Type} (tm : Mol C) : List (Nat × Nat) :=
  tm.atoms.map (fun a => (a.degree, a.atomicNum))

/-- Python's ascending lexicographic order on int pairs, used by sorted(...). -/
def pairLE (p q : Nat × Nat) : Prop :=
  p.1 < q.1 ∨ (p.1 = q.1 ∧ p.2 ≤ q.2)

instance : DecidableRel pairLE := fun p q =>
  inferInstanceAs (Decidable (p.1 < q.1 ∨ (p.1 = q.1 ∧ p.2 ≤ q.2)))

instance : IsTotal (Nat × Nat) pairLE :=
  ⟨fun p q => by
    rcases Nat.lt_trichotomy p.1 q.1 with h | h | h
    · exact Or.inl (Or.inl h)
    · rcases Nat.le_total p.2 q.2 with h2 | h2
      · exact Or.inl (Or.inr ⟨h, h2⟩)
      · exact Or.inr (Or.inr ⟨h.symm, h2⟩)
    · exact Or.inr (Or.inl h)⟩

instance : IsTrans (Nat × Nat) pairLE :=
  ⟨fun p q r hpq hqr => by
    rcases hpq with h1 | ⟨e1, l1⟩
    · rcases hqr with h2 | ⟨e2, _⟩
      · exact Or.inl (h1.trans h2)
      · exact Or.inl (e2 ▸ h1)
    · rcases hqr with h2 | ⟨e2, l2⟩
      · exact Or.inl (e1 ▸ h2)
      · exact Or.inr ⟨e1.trans e2, l1.trans l2⟩⟩

instance : IsAntisymm (Nat × Nat) pairLE :=
  ⟨fun p q hpq hqp => by
    rcases hpq with h1 | ⟨e1, l1⟩
    · rcases hqp with h2 | ⟨e2, _⟩
      · exact absurd (h1.trans h2) (lt_irrefl _)
      · exact absurd h1 (e2 ▸ lt_irrefl _)
    · rcases hqp with h2 | ⟨e2, l2⟩
      · exact absurd h2 (e1 ▸ lt_irrefl _)
      · exact Prod.ext e1 (le_antisymm l1 l2)⟩

/-- sorted([(a.GetDegree(), a.GetAtomicNum()) for a in tm.GetAtoms()]). -/
def sortedPairs {C : Type} (tm : Mol C) : List (Nat × Nat) :=
  List.insertionSort pairLE (atomPairs tm)

/-- Resolution of the random source in EnumerateStereoisomers: with no
caller-supplied source, seed from the hash of the sorted degree/element
pairs; a supplied random.Random instance is used directly; any other
supplied value is used as a seed for random.Random. -/
def resolveRand {C : Type} (E : ExternalFns C) (tm : Mol C) :
    Option (Sum RandGen Int) → RandGen
  | none => E.mkRandom (E.pyhash (sortedPairs tm))
  | some (Sum.inl r) => r
  | some (Sum.inr s) => E.mkRandom s

/-- The exhaustive generator _RangeBitsGenerator: every integer in
[0, 2^nCenters) in ascending order, once each. -/
def RangeBitsGenerator (nCenters : Nat) : List Nat :=
  List.range (2 ^ nCenters)

/-- The unique-random generator _UniqueRandomBitsGenerator, indexed by the
number of loop iterations executed (each iteration is one getrandbits
draw). The while-loop guard compares the size of the already_seen set to
2^nCenters before each draw; a draw already seen is skipped (continue);
otherwise it is recorded and yielded. The maxIsomers value stored by the
source constructor is never read inside the loop and is omitted. The list
returned is the sequence of yielded values after the given number of
iterations. -/
def UniqueRandomBitsGenerator (nCenters : Nat) (rand : RandGen) : Nat → List Nat
  | 0 => []
  | t + 1 =>
    let prev := UniqueRandomBitsGenerator nCenters rand t
    if prev.length < 2 ^ nCenters then
      let bits := getrandbits rand t nCenters
      if bits ∈ prev then prev else prev ++ [bits]
    else prev

/-- Conformer transfer on embedding success: conf = Chem.Conformer(numAtoms);
each position aid below isomer.GetNumAtoms() is copied from
ntm.GetConformer() (the first conformer of the mutated molecule); the new
conformer is appended to the isomer. -/
def attachConformer {C : Type} [Inhabited C] (isomer ntm : Mol C) : Mol C :=
  { isomer with conformers := isomer.conformers ++
      [⟨(List.range isomer.atoms.length).map
          (fun aid => (ntm.conformers.getD 0 default).positions.getD aid default)⟩] }

/-- The driver's main loop over the bit source. Returns the emitted isomer
list and the log of embedding-oracle calls, each recorded as the molecule
passed to EmbedMolecule together with the randomSeed argument (the
configuration index). The base copy tm is mutated in place by the flips
each iteration, then copied into the candidate (isomer = Chem.Mol(tm));
after an emission the loop breaks once the emitted count reaches a nonzero
maxIsomers. -/
def driverLoop {C : Type} [Inhabited C] (E : ExternalFns C)
    (options : StereoEnumerationOptions) (flippers : List Flipper)
    (tm : Mol C) (bits : List Nat) (numIsomers : Int) :
    List (Mol C) × List (Mol C × Nat) :=
  match bits with
  | [] => ([], [])
  | bitflag :: rest =>
    let tm2 := applyBits flippers bitflag tm
    let isomer := tm2
    if options.tryEmbedding then
      let ntm := E.addHs isomer
      let res := E.embedMolecule ntm bitflag
      if 0 ≤ res.1 then
        let isomer2 := attachConformer isomer res.2
        if options.maxIsomers ≠ 0 ∧ numIsomers + 1 ≥ options.maxIsomers then
          ([isomer2], [(ntm, bitflag)])
        else
          let r := driverLoop E options flippers tm2 rest (numIsomers + 1)
          (isomer2 :: r.1, (ntm, bitflag) :: r.2)
      else
        let r := driverLoop E options flippers tm2 rest numIsomers
        (r.1, (ntm, bitflag) :: r.2)
    else
      if options.maxIsomers ≠ 0 ∧ numIsomers + 1 ≥ options.maxIsomers then
        ([isomer], [])
      else
        let r := driverLoop E options flippers tm2 rest (numIsomers + 1)
        (isomer :: r.1, r.2)

/-- The driver's generator selection: exhaustive when maxIsomers == 0 or
2^nCenters fits under the cap, unique-random otherwise (with the resolved
random source). -/
def bitsource {C : Type} (E : ExternalFns C) (tm : Mol C)
    (options : StereoEnumerationOptions) (nCenters fuel : Nat) : List Nat :=
  if options.maxIsomers = 0 ∨ ((2 ^ nCenters : Nat) : Int) ≤ options.maxIsomers then
    RangeBitsGenerator nCenters
  else
    UniqueRandomBitsGenerator nCenters (resolveRand E tm options.rand) fuel

/-- EnumerateStereoisomers, returning both the emitted isomers and the
embedding-call log. tm = Chem.Mol(m) is a value copy; _getFlippers runs
detection on tm and discovers the eligible elements; with no centers the
copy is yielded once; otherwise the selected bit source drives the loop.
fuel bounds the unique-random generator's iterations and is unused on the
exhaustive path. -/
def EnumerateStereoisomersFull {C : Type} [Inhabited C] (E : ExternalFns C)
    (m : Mol C) (options : StereoEnumerationOptions) (fuel : Nat) :
    List (Mol C) × List (Mol C × Nat) :=
  let tmfl := getFlippersFull E m options
  let tm := tmfl.1
  let flippers := tmfl.2
  let nCenters := flippers.length
  if nCenters = 0 then ([tm], [])
  else
    driverLoop E options flippers tm (bitsource E tm options nCenters fuel) 0

/-- The emitted isomer sequence of EnumerateStereoisomers. -/
def EnumerateStereoisomers {C : Type} [Inhabited C] (E : ExternalFns C)
    (m : Mol C) (options : StereoEnumerationOptions) (fuel : Nat) : List (Mol C) :=
  (EnumerateStereoisomersFull E m options fuel).1

/-
Heap-level rendering of the driver, for the frame property. Python objects
live in a store (a list of molecule values addressed by index); Chem.Mol
allocates a fresh cell holding a copy, and every in-place mutation of the
source (FindPotentialStereoBonds, the flips on tm, EmbedMolecule on ntm,
AddConformer on the isomer) is a store write at the owning cell's address.
The caller's molecule sits at its own address, which the driver never
writes.
-/

/-- The object store: molecule values addressed by list index. -/
abbrev Store (C : Type) : Type := List (Mol C)

/-- The driver loop over the store: flips mutate the cell of tm, the
candidate copy and the hydrogen-added molecule are fresh allocations, the
embedding oracle's mutation of ntm and the conformer attachment are writes
to those fresh cells. Returns the final store and the emitted addresses. -/
def driverLoopStore {C : Type} [Inhabited C] (E : ExternalFns C)
    (options : StereoEnumerationOptions) (flippers : List Flipper)
    (tmRef : Nat) (bits : List Nat) (numIsomers : Int) (s : Store C) :
    Store C × List Nat :=
  match bits with
  | [] => (s, [])
  | bitflag :: rest =>
    let s1 := s.set tmRef (applyBits flippers bitflag (s.getD tmRef default))
    let isoRef := s1.length
    let s2 := s1 ++ [s1.getD tmRef default]
    if options.tryEmbedding then
      let ntmRef := s2.length
      let s3 := s2 ++ [E.addHs (s2.getD isoRef default)]
      let res := E.embedMolecule (s3.getD ntmRef default) bitflag
      let s4 := s3.set ntmRef res.2
      if 0 ≤ res.1 then
        let s5 := s4.set isoRef (attachConformer (s4.getD isoRef default) (s4.getD ntmRef default))
        if options.maxIsomers ≠ 0 ∧ numIsomers + 1 ≥ options.maxIsomers then
          (s5, [isoRef])
        else
          let r := driverLoopStore E options flippers tmRef rest (numIsomers + 1) s5
          (r.1, isoRef :: r.2)
      else
        let r := driverLoopStore E options flippers tmRef rest numIsomers s4
        (r.1, r.2)
    else
      if options.maxIsomers ≠ 0 ∧ numIsomers + 1 ≥ options.maxIsomers then
        (s2, [isoRef])
      else
        let r := driverLoopStore E options flippers tmRef rest (numIsomers + 1) s2
        (r.1, isoRef :: r.2)

/-- EnumerateStereoisomers over the store: tm = Chem.Mol(m) is a fresh
allocation, detection mutates tm's cell in place, and the loop runs with
every write confined to tm's cell and to cells allocated afterwards. -/
def EnumerateStereoisomersStore {C : Type} [Inhabited C] (E : ExternalFns C)
    (options : StereoEnumerationOptions) (fuel : Nat) (s : Store C)
    (mRef : Nat) : Store C × List Nat :=
  let tmRef := s.length
  let s1 := s ++ [s.getD mRef default]
  let s2 := s1.set tmRef (E.detect (s1.getD tmRef default))
  let tm := s2.getD tmRef default
  let flippers := getFlippers tm options
  let nCenters := flippers.length
  if nCenters = 0 then (s2, [tmRef])
  else
    driverLoopStore E options flippers tmRef (bitsource E tm options nCenters fuel) 0 s2

/-
Helper lemmas: list reads through set and append, and extensionality by
indexed reads.
-/

theorem getD_set_same {α : Type} {l : List α} {i : Nat} (a d : α)
    (h : i < l.length) : (l.set i a).getD i d = a := by
  simp [List.getD_eq_getElem?_getD, List.getElem?_set_self, h]

theorem getD_set_other {α : Type} {l : List α} {i j : Nat} (a d : α)
    (h : i ≠ j) : (l.set i a).getD j d = l.getD j d := by
  simp [List.getD_eq_getElem?_getD, List.getElem?_set_ne h]

theorem getD_append_low {α : Type} {l l' : List α} {j : Nat} (d : α)
    (h : j < l.length) : (l ++ l').getD j d = l.getD j d := by
  simp [List.getD_eq_getElem?_getD, List.getElem?_append, h]

theorem listEqOfGetD {α : Type} {l₁ l₂ : List α} (d : α)
    (hl : l₁.length = l₂.length)
    (h : ∀ i, i < l₁.length → l₁.getD i d = l₂.getD i d) : l₁ = l₂ := by
  apply List.ext_getElem hl
  intro i h1 h2
  have := h i h1
  simpa [List.getD_eq_getElem?_getD, List.getElem?_eq_getElem, h1, h2] using this

theorem indexOfSome {α : Type} {l : List α} {x : α} (h : x ∈ l) :
    ∃ n : Nat, l[n]? = some x := by
  obtain ⟨n, hlt, hn⟩ := List.getElem_of_mem h
  exact ⟨n, by rw [List.getElem?_eq_getElem hlt] ; exact congrArg some hn⟩

/-
Lemmas about flipOne and applyBits: flips preserve the molecule's shape
and its conformers, leave untargeted elements alone, and write an absolute
configuration at the targeted element.
-/

/-- A flipper's target index is inside the molecule. -/
def Flipper.validIn {C : Type} (f : Flipper) (m : Mol C) : Prop :=
  match f with
  | Flipper.atom p => p < m.atoms.length
  | Flipper.bond p => p < m.bonds.length

/-- Every flipper in the list has a valid target. -/
def ValidTargets {C : Type} (fs : List Flipper) (m : Mol C) : Prop :=
  ∀ f ∈ fs, f.validIn m

/-- The chirality tag an atom flip writes for a given flag. -/
def atomTagOf (flag : Bool) : ChiralType :=
  if flag then ChiralType.CHI_TETRAHEDRAL_CW else ChiralType.CHI_TETRAHEDRAL_CCW

/-- The bond stereo a bond flip writes for a given flag. -/
def bondStereoOf (flag : Bool) : BondStereo :=
  if flag then BondStereo.STEREOCIS else BondStereo.STEREOTRANS

theorem flipOne_conformers {C : Type} (m : Mol C) (f : Flipper) (flag : Bool) :
    (flipOne m f flag).conformers = m.conformers := by
  cases f <;> rfl

theorem flipOne_atoms_length {C : Type} (m : Mol C) (f : Flipper) (flag : Bool) :
    (flipOne m f flag).atoms.length = m.atoms.length := by
  cases f <;> simp [flipOne]

theorem flipOne_bonds_length {C : Type} (m : Mol C) (f : Flipper) (flag : Bool) :
    (flipOne m f flag).bonds.length = m.bonds.length := by
  cases f <;> simp [flipOne]

theorem flipOne_atom_getD_ne {C : Type} (m : Mol C) (f : Flipper) (flag : Bool)
    {p : Nat} (d : Atom) (h : f ≠ Flipper.atom p) :
    (flipOne m f flag).atoms.getD p d = m.atoms.getD p d := by
  cases f with
  | atom q =>
    have hq : q ≠ p := fun he => h (by rw [he])
    simp only [flipOne]
    exact getD_set_other _ _ hq
  | bond q => rfl

theorem flipOne_bond_getD_ne {C : Type} (m : Mol C) (f : Flipper) (flag : Bool)
    {p : Nat} (d : Bond) (h : f ≠ Flipper.bond p) :
    (flipOne m f flag).bonds.getD p d = m.bonds.getD p d := by
  cases f with
  | atom q => rfl
  | bond q =>
    have hq : q ≠ p := fun he => h (by rw [he])
    simp only [flipOne]
    exact getD_set_other _ _ hq

theorem flipOne_atom_getD_self {C : Type} (m : Mol C) (flag : Bool)
    {p : Nat} (d : Atom) (h : p < m.atoms.length) :
    (flipOne m (Flipper.atom p) flag).atoms.getD p d =
      { m.atoms.getD p d with chiralTag := atomTagOf flag } := by
  simp only [flipOne, atomTagOf]
  rw [getD_set_same _ _ h]
  have : m.atoms.getD p default = m.atoms.getD p d := by
    rw [List.getD_eq_getElem _ _ h, List.getD_eq_getElem _ _ h]
  rw [this]

theorem flipOne_bond_getD_self {C : Type} (m : Mol C) (flag : Bool)
    {p : Nat} (d : Bond) (h : p < m.bonds.length) :
    (flipOne m (Flipper.bond p) flag).bonds.getD p d =
      { stereo := bondStereoOf flag } := by
  simp only [flipOne, bondStereoOf]
  rw [getD_set_same _ _ h]

theorem applyBitsAux_conformers {C : Type} (k : Nat) (fs : List Flipper)
    (i : Nat) (m : Mol C) :
    (applyBitsAux k fs i m).conformers = m.conformers := by
  induction fs generalizing i m with
  | nil => rfl
  | cons f rest ih =>
    simp only [applyBitsAux]
    rw [ih, flipOne_conformers]

theorem applyBitsAux_atoms_length {C : Type} (k : Nat) (fs : List Flipper)
    (i : Nat) (m : Mol C) :
    (applyBitsAux k fs i m).atoms.length = m.atoms.length := by
  induction fs generalizing i m with
  | nil => rfl
  | cons f rest ih =>
    simp only [applyBitsAux]
    rw [ih, flipOne_atoms_length]

theorem applyBitsAux_bonds_length {C : Type} (k : Nat) (fs : List Flipper)
    (i : Nat) (m : Mol C) :
    (applyBitsAux k fs i m).bonds.length = m.bonds.length := by
  induction fs generalizing i m with
  | nil => rfl
  | cons f rest ih =>
    simp only [applyBitsAux]
    rw [ih, flipOne_bonds_length]

theorem applyBitsAux_atom_not_mem {C : Type} (k : Nat) {fs : List Flipper}
    (i : Nat) (m : Mol C) {p : Nat} (d : Atom) (h : Flipper.atom p ∉ fs) :
    (applyBitsAux k fs i m).atoms.getD p d = m.atoms.getD p d := by
  induction fs generalizing i m with
  | nil => rfl
  | cons f rest ih =>
    simp only [applyBitsAux]
    have hf : f ≠ Flipper.atom p := fun he => h (he ▸ List.mem_cons_self f rest)
    rw [ih _ _ (fun hm => h (List.mem_cons_of_mem f hm)), flipOne_atom_getD_ne _ _ _ _ hf]

theorem applyBitsAux_bond_not_mem {C : Type} (k : Nat) {fs : List Flipper}
    (i : Nat) (m : Mol C) {p : Nat} (d : Bond) (h : Flipper.bond p ∉ fs) :
    (applyBitsAux k fs i m).bonds.getD p d = m.bonds.getD p d := by
  induction fs generalizing i m with
  | nil => rfl
  | cons f rest ih =>
    simp only [applyBitsAux]
    have hf : f ≠ Flipper.bond p := fun he => h (he ▸ List.mem_cons_self f rest)
    rw [ih _ _ (fun hm => h (List.mem_cons_of_mem f hm)), flipOne_bond_getD_ne _ _ _ _ hf]

theorem applyBitsAux_atom_target {C : Type} (k : Nat) {fs : List Flipper}
    (i : Nat) (m : Mol C) {p pos : Nat} (d : Atom)
    (hpos : fs[pos]? = some (Flipper.atom p))
    (huniq : ∀ pos2, fs[pos2]? = some (Flipper.atom p) → pos2 = pos)
    (hp : p < m.atoms.length) :
    (applyBitsAux k fs i m).atoms.getD p d =
      { m.atoms.getD p d with chiralTag := atomTagOf (k.testBit (i + pos)) } := by
  induction fs generalizing i m pos with
  | nil => simp at hpos
  | cons f rest ih =>
    cases pos with
    | zero =>
      have hf : f = Flipper.atom p := by simpa using hpos
      subst hf
      have hnot : Flipper.atom p ∉ rest := by
        intro hm
        obtain ⟨n, hn⟩ := indexOfSome hm
        have : n + 1 = 0 := huniq (n + 1) (by simpa using hn)
        exact absurd this (Nat.succ_ne_zero n)
      simp only [applyBitsAux]
      rw [applyBitsAux_atom_not_mem _ _ _ _ hnot, flipOne_atom_getD_self _ _ _ hp]
      simp
    | succ j =>
      have hj : rest[j]? = some (Flipper.atom p) := by simpa using hpos
      have hf : f ≠ Flipper.atom p := by
        intro he
        have : (0 : Nat) = j + 1 := huniq 0 (by simpa using congrArg some he)
        exact absurd this.symm (Nat.succ_ne_zero j)
      have huniq2 : ∀ pos2, rest[pos2]? = some (Flipper.atom p) → pos2 = j := by
        intro pos2 h2
        have : pos2 + 1 = j + 1 := huniq (pos2 + 1) (by simpa using h2)
        exact Nat.succ_injective this
      simp only [applyBitsAux]
      have hp2 : p < (flipOne m f (k.testBit i)).atoms.length := by
        rw [flipOne_atoms_length] ; exact hp
      rw [ih _ _ hj huniq2 hp2, flipOne_atom_getD_ne _ _ _ _ hf]
      have : i + 1 + j = i + (j + 1) := by omega
      rw [this]

theorem applyBitsAux_bond_target {C : Type} (k : Nat) {fs : List Flipper}
    (i : Nat) (m : Mol C) {p pos : Nat} (d : Bond)
    (hpos : fs[pos]? = some (Flipper.bond p))
    (huniq : ∀ pos2, fs[pos2]? = some (Flipper.bond p) → pos2 = pos)
    (hp : p < m.bonds.length) :
    (applyBitsAux k fs i m).bonds.getD p d =
      { stereo := bondStereoOf (k.testBit (i + pos)) } := by
  induction fs generalizing i m pos with
  | nil => simp at hpos
  | cons f rest ih =>
    cases pos with
    | zero =>
      have hf : f = Flipper.bond p := by simpa using hpos
      subst hf
      have hnot : Flipper.bond p ∉ rest := by
        intro hm
        obtain ⟨n, hn⟩ := indexOfSome hm
        have : n + 1 = 0 := huniq (n + 1) (by simpa using hn)
        exact absurd this (Nat.succ_ne_zero n)
      simp only [applyBitsAux]
      rw [applyBitsAux_bond_not_mem _ _ _ _ hnot, flipOne_bond_getD_self _ _ _ hp]
      simp
    | succ j =>
      have hj : rest[j]? = some (Flipper.bond p) := by simpa using hpos
      have hf : f ≠ Flipper.bond p := by
        intro he
        have : (0 : Nat) = j + 1 := huniq 0 (by simpa using congrArg some he)
        exact absurd this.symm (Nat.succ_ne_zero j)
      have huniq2 : ∀ pos2, rest[pos2]? = some (Flipper.bond p) → pos2 = j := by
        intro pos2 h2
        have : pos2 + 1 = j + 1 := huniq (pos2 + 1) (by simpa using h2)
        exact Nat.succ_injective this
      simp only [applyBitsAux]
      have hp2 : p < (flipOne m f (k.testBit i)).bonds.length := by
        rw [flipOne_bonds_length] ; exact hp
      rw [ih _ _ hj huniq2 hp2]
      have : i + 1 + j = i + (j + 1) := by omega
      rw [this]

theorem molExt {C : Type} {m₁ m₂ : Mol C} (ha : m₁.atoms = m₂.atoms)
    (hb : m₁.bonds = m₂.bonds) (hc : m₁.conformers = m₂.conformers) : m₁ = m₂ := by
  cases m₁ ; cases m₂
  simp_all

theorem nodupUniquePos {α : Type} {l : List α} (hnd : l.Nodup) {x : α} {pos : Nat}
    (hpos : l[pos]? = some x) : ∀ pos2, l[pos2]? = some x → pos2 = pos := by
  intro pos2 h2
  obtain ⟨hlt, hval⟩ := List.getElem?_eq_some.mp hpos
  obtain ⟨hlt2, hval2⟩ := List.getElem?_eq_some.mp h2
  exact (List.Nodup.getElem_inj_iff hnd).mp (by rw [hval, hval2])

/-- Flips are absolute writes: re-applying a configuration on top of a
previously flipped state gives the same molecule as applying it to the
base state, provided the flipper list has no duplicate and valid targets. -/
theorem applyBits_overwrite {C : Type} {fs : List Flipper} {m : Mol C}
    (hnd : fs.Nodup) (j k : Nat) :
    applyBits fs k (applyBits fs j m) = applyBits fs k m := by
  have lenA : ∀ (x : Nat) (mm : Mol C), (applyBits fs x mm).atoms.length = mm.atoms.length :=
    fun x mm => applyBitsAux_atoms_length x fs 0 mm
  have lenB : ∀ (x : Nat) (mm : Mol C), (applyBits fs x mm).bonds.length = mm.bonds.length :=
    fun x mm => applyBitsAux_bonds_length x fs 0 mm
  apply molExt
  · apply listEqOfGetD default
    · simp only [lenA]
    · intro p hp
      have hpm : p < m.atoms.length := by
        rw [lenA, lenA] at hp ; exact hp
      by_cases hmem : Flipper.atom p ∈ fs
      · obtain ⟨pos, hpos⟩ := indexOfSome hmem
        have huniq := nodupUniquePos hnd hpos
        have hp1 : p < (applyBits fs j m).atoms.length := by rw [lenA] ; exact hpm
        have e1 := applyBitsAux_atom_target k 0 (applyBits fs j m)
          default hpos huniq hp1
        have e2 : (applyBits fs j m).atoms.getD p default =
            { m.atoms.getD p default with chiralTag := atomTagOf (j.testBit (0 + pos)) } :=
          applyBitsAux_atom_target j 0 m default hpos huniq hpm
        have e3 := applyBitsAux_atom_target k 0 m default hpos huniq hpm
        show (applyBitsAux k fs 0 (applyBits fs j m)).atoms.getD p default =
          (applyBitsAux k fs 0 m).atoms.getD p default
        rw [e1, e3, e2]
      · have e1 := applyBitsAux_atom_not_mem k 0 (applyBits fs j m) default hmem
        have e2 := applyBitsAux_atom_not_mem j 0 m default hmem
        have e3 := applyBitsAux_atom_not_mem k 0 m default hmem
        show (applyBitsAux k fs 0 (applyBits fs j m)).atoms.getD p default =
          (applyBitsAux k fs 0 m).atoms.getD p default
        rw [e1, e3]
        exact e2
  · apply listEqOfGetD default
    · simp only [lenB]
    · intro p hp
      have hpm : p < m.bonds.length := by
        rw [lenB, lenB] at hp ; exact hp
      by_cases hmem : Flipper.bond p ∈ fs
      · obtain ⟨pos, hpos⟩ := indexOfSome hmem
        have huniq := nodupUniquePos hnd hpos
        have hp1 : p < (applyBits fs j m).bonds.length := by rw [lenB] ; exact hpm
        have e1 := applyBitsAux_bond_target k 0 (applyBits fs j m)
          default hpos huniq hp1
        have e3 := applyBitsAux_bond_target k 0 m default hpos huniq hpm
        show (applyBitsAux k fs 0 (applyBits fs j m)).bonds.getD p default =
          (applyBitsAux k fs 0 m).bonds.getD p default
        rw [e1, e3]
      · have e1 := applyBitsAux_bond_not_mem k 0 (applyBits fs j m) default hmem
        have e2 := applyBitsAux_bond_not_mem j 0 m default hmem
        have e3 := applyBitsAux_bond_not_mem k 0 m default hmem
        show (applyBitsAux k fs 0 (applyBits fs j m)).bonds.getD p default =
          (applyBitsAux k fs 0 m).bonds.getD p default
        rw [e1, e3]
        exact e2
  · show (applyBitsAux k fs 0 (applyBits fs j m)).conformers = (applyBitsAux k fs 0 m).conformers
    rw [applyBitsAux_conformers, applyBitsAux_conformers]
    exact applyBitsAux_conformers j fs 0 m

/-
Structural facts about the eligible-element list.
-/

/-- Membership of an atom flipper in the discovered list is exactly the
source's eligibility test on that atom. -/
theorem getFlippers_atom_mem {C : Type} (mol : Mol C)
    (options : StereoEnumerationOptions) (p : Nat) :
    Flipper.atom p ∈ getFlippers mol options ↔
      p < mol.atoms.length ∧ atomEligible options (mol.atoms.getD p default) = true := by
  simp only [getFlippers, List.mem_append, List.mem_map, List.mem_filter, List.mem_range]
  constructor
  · rintro (⟨i, ⟨hi, he⟩, heq⟩ | ⟨i, _, heq⟩)
    · cases heq ; exact ⟨hi, he⟩
    · cases heq
  · intro ⟨hp, he⟩
    exact Or.inl ⟨p, ⟨hp, he⟩, rfl⟩

/-- Membership of a bond flipper in the discovered list is exactly the
source's eligibility test on that bond. -/
theorem getFlippers_bond_mem {C : Type} (mol : Mol C)
    (options : StereoEnumerationOptions) (p : Nat) :
    Flipper.bond p ∈ getFlippers mol options ↔
      p < mol.bonds.length ∧ bondEligible options (mol.bonds.getD p default) = true := by
  simp only [getFlippers, List.mem_append, List.mem_map, List.mem_filter, List.mem_range]
  constructor
  · rintro (⟨i, _, heq⟩ | ⟨i, ⟨hi, he⟩, heq⟩)
    · cases heq
    · cases heq ; exact ⟨hi, he⟩
  · intro ⟨hp, he⟩
    exact Or.inr ⟨p, ⟨hp, he⟩, rfl⟩

/-- Atoms before bonds, each block in strictly ascending index order. -/
def flipKey : Flipper → Nat × Nat
  | Flipper.atom i => (0, i)
  | Flipper.bond i => (1, i)

/-- Strict lexicographic order on keys. -/
def keyLT (p q : Nat × Nat) : Prop :=
  p.1 < q.1 ∨ (p.1 = q.1 ∧ p.2 < q.2)

/-- The discovered list is strictly sorted: atoms in ascending index order
first, then bonds in ascending index order. -/
theorem getFlippers_sortedKeys {C : Type} (mol : Mol C)
    (options : StereoEnumerationOptions) :
    (getFlippers mol options).Pairwise (fun f g => keyLT (flipKey f) (flipKey g)) := by
  unfold getFlippers
  rw [List.pairwise_append]
  refine ⟨?_, ?_, ?_⟩
  · rw [List.pairwise_map]
    exact List.Pairwise.filter _
      ((List.pairwise_lt_range _).imp (fun h => Or.inr ⟨rfl, h⟩))
  · rw [List.pairwise_map]
    exact List.Pairwise.filter _
      ((List.pairwise_lt_range _).imp (fun h => Or.inr ⟨rfl, h⟩))
  · intro a ha b hb
    obtain ⟨i, _, rfl⟩ := List.mem_map.mp ha
    obtain ⟨j, _, rfl⟩ := List.mem_map.mp hb
    exact Or.inl (by simp [flipKey])

/-- keyLT is irreflexive, so the sorted list has no duplicates. -/
theorem getFlippers_nodup {C : Type} (mol : Mol C)
    (options : StereoEnumerationOptions) : (getFlippers mol options).Nodup := by
  have h := getFlippers_sortedKeys mol options
  refine List.Pairwise.imp ?_ h
  intro a b hk he
  subst he
  rcases hk with h1 | ⟨_, h2⟩
  · exact absurd h1 (lt_irrefl _)
  · exact absurd h2 (lt_irrefl _)

/-- Every discovered flipper points inside the molecule. -/
theorem getFlippers_valid {C : Type} (mol : Mol C)
    (options : StereoEnumerationOptions) :
    ValidTargets (getFlippers mol options) mol := by
  intro f hf
  cases f with
  | atom p => exact ((getFlippers_atom_mem mol options p).mp hf).1
  | bond p => exact ((getFlippers_bond_mem mol options p).mp hf).1

/-
Generator facts.
-/

/-- Values yielded by the unique-random generator lie in [0, 2^n). -/
theorem urbg_lt {n : Nat} (g : RandGen) (t : Nat) :
    ∀ x ∈ UniqueRandomBitsGenerator n g t, x < 2 ^ n := by
  induction t with
  | zero => intro x hx ; simp [UniqueRandomBitsGenerator] at hx
  | succ t ih =>
    intro x hx
    simp only [UniqueRandomBitsGenerator] at hx
    by_cases hfull : (UniqueRandomBitsGenerator n g t).length < 2 ^ n
    · rw [if_pos hfull] at hx
      by_cases hseen : getrandbits g t n ∈ UniqueRandomBitsGenerator n g t
      · rw [if_pos hseen] at hx ; exact ih x hx
      · rw [if_neg hseen] at hx
        rcases List.mem_append.mp hx with h | h
        · exact ih x h
        · rw [List.mem_singleton.mp h]
          exact Nat.mod_lt _ (Nat.pos_pow_of_pos n (by omega))
    · rw [if_neg hfull] at hx ; exact ih x hx

/-- The unique-random generator never repeats a value within one run. -/
theorem urbg_nodup {n : Nat} (g : RandGen) (t : Nat) :
    (UniqueRandomBitsGenerator n g t).Nodup := by
  induction t with
  | zero => simp [UniqueRandomBitsGenerator]
  | succ t ih =>
    simp only [UniqueRandomBitsGenerator]
    by_cases hfull : (UniqueRandomBitsGenerator n g t).length < 2 ^ n
    · rw [if_pos hfull]
      by_cases hseen : getrandbits g t n ∈ UniqueRandomBitsGenerator n g t
      · rw [if_pos hseen] ; exact ih
      · rw [if_neg hseen]
        exact List.Nodup.append ih (List.nodup_singleton _)
          (by simpa [List.disjoint_singleton] using hseen)
    · rw [if_neg hfull] ; exact ih

/-- The unique-random generator terminates its own production: no matter
how many loop iterations run, at most 2^n values are ever yielded. -/
theorem urbg_length_le {n : Nat} (g : RandGen) (t : Nat) :
    (UniqueRandomBitsGenerator n g t).length ≤ 2 ^ n := by
  induction t with
  | zero => simp [UniqueRandomBitsGenerator]
  | succ t ih =>
    simp only [UniqueRandomBitsGenerator]
    by_cases hfull : (UniqueRandomBitsGenerator n g t).length < 2 ^ n
    · rw [if_pos hfull]
      by_cases hseen : getrandbits g t n ∈ UniqueRandomBitsGenerator n g t
      · rw [if_pos hseen] ; exact ih
      · rw [if_neg hseen]
        simpa using hfull
    · rw [if_neg hfull] ; exact ih

/-- With at least one loop iteration, the generator has yielded a value
(the first draw is always fresh). -/
theorem urbg_length_pos {n : Nat} (g : RandGen) {t : Nat} (ht : 1 ≤ t) :
    1 ≤ (UniqueRandomBitsGenerator n g t).length := by
  induction t with
  | zero => omega
  | succ t ih =>
    simp only [UniqueRandomBitsGenerator]
    by_cases ht0 : 1 ≤ t
    · have h1 := ih ht0
      by_cases hfull : (UniqueRandomBitsGenerator n g t).length < 2 ^ n
      · rw [if_pos hfull]
        by_cases hseen : getrandbits g t n ∈ UniqueRandomBitsGenerator n g t
        · rw [if_pos hseen] ; exact h1
        · rw [if_neg hseen] ; simp
      · rw [if_neg hfull] ; exact h1
    · have ht0 : t = 0 := by omega
      subst ht0
      have hempty : UniqueRandomBitsGenerator n g 0 = [] := rfl
      rw [hempty]
      have hpos : (0 : Nat) < 2 ^ n := Nat.pos_pow_of_pos n (by omega)
      simp [hpos]

/-- The exhaustive generator is strictly ascending. -/
theorem rbg_sorted (n : Nat) : (RangeBitsGenerator n).Pairwise (· < ·) :=
  List.pairwise_lt_range _

/-- The exhaustive generator yields each value at most once. -/
theorem rbg_nodup (n : Nat) : (RangeBitsGenerator n).Nodup :=
  List.nodup_range _

/-- The exhaustive generator yields exactly the integers in [0, 2^n). -/
theorem rbg_mem (n k : Nat) : k ∈ RangeBitsGenerator n ↔ k < 2 ^ n :=
  List.mem_range

/-
Driver-loop lemmas.
-/

/-- With embedding disabled and the cap unable to cut the run short, the
loop emits one candidate per pulled index, and each emitted candidate is
the configuration applied to the loop's base state: the in-place flips on
tm never leak across candidates because every flip writes an absolute
value. -/
theorem driverLoop_noEmbed_map {C : Type} [Inhabited C] (E : ExternalFns C)
    (options : StereoEnumerationOptions) {fs : List Flipper} (hnd : fs.Nodup)
    (hne : options.tryEmbedding = false) :
    ∀ (bits : List Nat) (tm : Mol C) (ni : Int),
      (options.maxIsomers = 0 ∨ (ni + bits.length : Int) ≤ options.maxIsomers) →
      (driverLoop E options fs tm bits ni).1 = bits.map (fun k => applyBits fs k tm) := by
  intro bits
  induction bits with
  | nil => intro tm ni _ ; rfl
  | cons k rest ih =>
    intro tm ni hcap
    simp only [driverLoop, hne, Bool.false_eq_true, if_false, List.map_cons]
    by_cases hc : options.maxIsomers ≠ 0 ∧ ni + 1 ≥ options.maxIsomers
    · rw [if_pos hc]
      have hrest : rest = [] := by
        rcases hcap with h0 | hle
        · exact absurd h0 hc.1
        · have hlen : rest.length = 0 := by
            simp only [List.length_cons] at hle
            by_contra hne2
            have h1 : 1 ≤ (rest.length : Int) := by
              exact_mod_cast Nat.one_le_iff_ne_zero.mpr hne2
            push_cast at hle
            omega
          exact List.eq_nil_of_length_eq_zero hlen
      subst hrest
      rfl
    · rw [if_neg hc]
      have hcap2 : options.maxIsomers = 0 ∨
          ((ni + 1) + rest.length : Int) ≤ options.maxIsomers := by
        rcases hcap with h0 | hle
        · exact Or.inl h0
        · refine Or.inr ?_
          simp only [List.length_cons] at hle
          push_cast at hle ⊢
          omega
      rw [ih (applyBits fs k tm) (ni + 1) hcap2]
      refine congrArg (List.cons _) (List.map_congr_left ?_)
      intro x _
      exact applyBits_overwrite hnd k x

/-- The loop never emits more candidates than it pulls indices. -/
theorem driverLoop_length_le_bits {C : Type} [Inhabited C] (E : ExternalFns C)
    (options : StereoEnumerationOptions) (fs : List Flipper) :
    ∀ (bits : List Nat) (tm : Mol C) (ni : Int),
      (driverLoop E options fs tm bits ni).1.length ≤ bits.length := by
  intro bits
  induction bits with
  | nil => intro tm ni ; simp [driverLoop]
  | cons k rest ih =>
    intro tm ni
    simp only [driverLoop]
    by_cases hemb : options.tryEmbedding
    · rw [if_pos hemb]
      by_cases hcid : 0 ≤ (E.embedMolecule (E.addHs (applyBits fs k tm)) k).1
      · rw [if_pos hcid]
        by_cases hc : options.maxIsomers ≠ 0 ∧ ni + 1 ≥ options.maxIsomers
        · rw [if_pos hc] ; simp
        · rw [if_neg hc]
          simpa using Nat.succ_le_succ (ih (applyBits fs k tm) (ni + 1))
      · rw [if_neg hcid]
        exact le_trans (ih (applyBits fs k tm) ni) (Nat.le_succ _)
    · rw [if_neg hemb]
      by_cases hc : options.maxIsomers ≠ 0 ∧ ni + 1 ≥ options.maxIsomers
      · rw [if_pos hc] ; simp
      · rw [if_neg hc]
        simpa using Nat.succ_le_succ (ih (applyBits fs k tm) (ni + 1))

/-- With a nonzero cap, the loop stops as soon as the emitted count reaches
it: starting from a count strictly below the cap, at most the remaining
budget is emitted. -/
theorem driverLoop_length_le_cap {C : Type} [Inhabited C] (E : ExternalFns C)
    (options : StereoEnumerationOptions) (fs : List Flipper) :
    ∀ (bits : List Nat) (tm : Mol C) (ni : Int), options.maxIsomers ≠ 0 →
      ni < options.maxIsomers →
      ((driverLoop E options fs tm bits ni).1.length : Int) ≤ options.maxIsomers - ni := by
  intro bits
  induction bits with
  | nil => intro tm ni _ hlt ; simp [driverLoop] ; omega
  | cons k rest ih =>
    intro tm ni h0 hlt
    simp only [driverLoop]
    by_cases hemb : options.tryEmbedding
    · rw [if_pos hemb]
      by_cases hcid : 0 ≤ (E.embedMolecule (E.addHs (applyBits fs k tm)) k).1
      · rw [if_pos hcid]
        by_cases hc : options.maxIsomers ≠ 0 ∧ ni + 1 ≥ options.maxIsomers
        · rw [if_pos hc] ; simp ; omega
        · rw [if_neg hc]
          have hlt2 : ni + 1 < options.maxIsomers := by
            rcases not_and_or.mp hc with h | h
            · exact absurd h0 h
            · omega
          have := ih (applyBits fs k tm) (ni + 1) h0 hlt2
          simp only [List.length_cons]
          push_cast
          push_cast at this
          omega
      · rw [if_neg hcid]
        exact ih (applyBits fs k tm) ni h0 hlt
    · rw [if_neg hemb]
      by_cases hc : options.maxIsomers ≠ 0 ∧ ni + 1 ≥ options.maxIsomers
      · rw [if_pos hc] ; simp ; omega
      · rw [if_neg hc]
        have hlt2 : ni + 1 < options.maxIsomers := by
          rcases not_and_or.mp hc with h | h
          · exact absurd h0 h
          · omega
        have := ih (applyBits fs k tm) (ni + 1) h0 hlt2
        simp only [List.length_cons]
        push_cast
        push_cast at this
        omega

/-- With embedding enabled, the loop makes exactly one oracle call per
pulled index (the call log's seed column is a sublist of the pulled
indices, in order), each call receives the hydrogen-added candidate for its
own index together with that index as the seed, and the emitted list
consists of exactly the successful calls' candidates, each with the
transferred conformer attached; failed calls are skipped silently. -/
theorem driverLoop_embed_spec {C : Type} [Inhabited C] (E : ExternalFns C)
    (options : StereoEnumerationOptions) {fs : List Flipper} (hnd : fs.Nodup)
    (hemb : options.tryEmbedding = true) :
    ∀ (bits : List Nat) (tm tm0 : Mol C) (ni : Int),
      (∀ x, applyBits fs x tm = applyBits fs x tm0) →
      ((driverLoop E options fs tm bits ni).2.map Prod.snd).Sublist bits ∧
      (∀ c ∈ (driverLoop E options fs tm bits ni).2,
        c.1 = E.addHs (applyBits fs c.2 tm0)) ∧
      (driverLoop E options fs tm bits ni).1 =
        (driverLoop E options fs tm bits ni).2.filterMap (fun c =>
          if 0 ≤ (E.embedMolecule c.1 c.2).1 then
            some (attachConformer (applyBits fs c.2 tm0) (E.embedMolecule c.1 c.2).2)
          else none) := by
  intro bits
  induction bits with
  | nil =>
    intro tm tm0 ni _
    exact ⟨List.nil_sublist _, by intro c hc ; simp [driverLoop] at hc, rfl⟩
  | cons k rest ih =>
    intro tm tm0 ni htm
    have htm2 : ∀ x, applyBits fs x (applyBits fs k tm) = applyBits fs x tm0 :=
      fun x => (applyBits_overwrite hnd k x).trans (htm x)
    simp only [driverLoop, hemb, if_true]
    by_cases hcid : 0 ≤ (E.embedMolecule (E.addHs (applyBits fs k tm)) k).1
    · rw [if_pos hcid]
      by_cases hc : options.maxIsomers ≠ 0 ∧ ni + 1 ≥ options.maxIsomers
      · rw [if_pos hc]
        refine ⟨?_, ?_, ?_⟩
        · simp
        · intro c hc2
          have hceq : c = (E.addHs (applyBits fs k tm), k) := by simpa using hc2
          subst hceq
          simp [htm k]
        · simp only [List.filterMap_cons, List.filterMap_nil]
          rw [if_pos hcid]
          simp [htm k]
      · rw [if_neg hc]
        obtain ⟨iha, ihb, ihc⟩ := ih (applyBits fs k tm) tm0 (ni + 1) htm2
        refine ⟨?_, ?_, ?_⟩
        · simpa using List.Sublist.cons₂ k iha
        · intro c hc2
          simp only [List.mem_cons] at hc2
          rcases hc2 with hceq | hc2
          · subst hceq
            simp [htm k]
          · exact ihb c hc2
        · simp only [List.filterMap_cons]
          rw [if_pos hcid]
          rw [ihc]
          simp [htm k]
    · rw [if_neg hcid]
      obtain ⟨iha, ihb, ihc⟩ := ih (applyBits fs k tm) tm0 ni htm2
      refine ⟨?_, ?_, ?_⟩
      · simpa using List.Sublist.cons₂ k iha
      · intro c hc2
        simp only [List.mem_cons] at hc2
        rcases hc2 with hceq | hc2
        · subst hceq
          simp [htm k]
        · exact ihb c hc2
      · simp only [List.filterMap_cons]
        rw [if_neg hcid]
        exact ihc

/-
Seed determinism support.
-/

/-- Sorting is a function of the multiset: two pair lists that are
permutations of one another sort to the same list. -/
theorem sortedPairs_eq_of_perm {C : Type} {m₁ m₂ : Mol C}
    (h : (atomPairs m₁).Perm (atomPairs m₂)) : sortedPairs m₁ = sortedPairs m₂ := by
  have hp : (sortedPairs m₁).Perm (sortedPairs m₂) :=
    (List.perm_insertionSort pairLE _).trans
      (h.trans (List.perm_insertionSort pairLE _).symm)
  exact List.eq_of_perm_of_sorted hp
    (List.sorted_insertionSort pairLE _) (List.sorted_insertionSort pairLE _)

/-
History independence of the per-candidate state.
-/

/-- The base copy's state after the loop has processed a list of earlier
configuration indices (each iteration flips tm in place). -/
def tmAfter {C : Type} (fs : List Flipper) (tm : Mol C) (js : List Nat) : Mol C :=
  js.foldl (fun acc j => applyBits fs j acc) tm

/-- Applying a configuration on top of any processing history gives the
same candidate as applying it to the pristine base. -/
theorem applyBits_tmAfter {C : Type} {fs : List Flipper} (hnd : fs.Nodup) :
    ∀ (js : List Nat) (tm : Mol C) (x : Nat),
      applyBits fs x (tmAfter fs tm js) = applyBits fs x tm := by
  intro js
  induction js with
  | nil => intro tm x ; rfl
  | cons j rest ih =>
    intro tm x
    show applyBits fs x (tmAfter fs (applyBits fs j tm) rest) = applyBits fs x tm
    rw [ih (applyBits fs j tm) x]
    exact applyBits_overwrite hnd j x

/-- Two base states indistinguishable under applyBits drive the loop to
identical results. -/
theorem driverLoop_congr_base {C : Type} [Inhabited C] (E : ExternalFns C)
    (options : StereoEnumerationOptions) (fs : List Flipper) :
    ∀ (bits : List Nat) (tm tm' : Mol C) (ni : Int),
      (∀ x, applyBits fs x tm' = applyBits fs x tm) →
      driverLoop E options fs tm' bits ni = driverLoop E options fs tm bits ni := by
  intro bits
  induction bits with
  | nil => intro tm tm' ni _ ; rfl
  | cons k rest ih =>
    intro tm tm' ni h
    show driverLoop E options fs tm' (k :: rest) ni = driverLoop E options fs tm (k :: rest) ni
    simp only [driverLoop, h k]

/-
Distinctness of configuration assignments.
-/

/-- The per-element flag list of a configuration index: element i of the
eligible list receives bool(bitflag & (1 << i)). -/
def configAssignment (n k : Nat) : List Bool :=
  (List.range n).map (fun i => k.testBit i)

/-- Distinct indices below 2^n have distinct assignment lists. -/
theorem configAssignment_injOn {n j k : Nat} (hj : j < 2 ^ n) (hk : k < 2 ^ n)
    (hne : j ≠ k) : configAssignment n j ≠ configAssignment n k := by
  intro he
  apply hne
  apply Nat.eq_of_testBit_eq
  intro i
  by_cases hi : i < n
  · have h1 : (configAssignment n j)[i]? = (configAssignment n k)[i]? := by rw [he]
    simp only [configAssignment, List.getElem?_map, List.getElem?_range, hi, if_pos] at h1
    have : (List.range n)[i]? = some i := by
      simp [List.getElem?_range, hi]
    simpa [List.getElem?_eq_getElem, List.length_range, hi] using h1
  · have hji : j < 2 ^ i := lt_of_lt_of_le hj (Nat.pow_le_pow_right (by omega) (by omega))
    have hki : k < 2 ^ i := lt_of_lt_of_le hk (Nat.pow_le_pow_right (by omega) (by omega))
    rw [Nat.testBit_lt_two_pow hji, Nat.testBit_lt_two_pow hki]

/-
Detector contract for the degenerate case.
-/

/-- Modelled from the spec: Chem.FindPotentialStereoBonds is an external
collaborator whose implementation is not part of this source file. Per the
spec's interface contract it annotates bonds in place, marking potential
stereo double bonds as "unspecified/any" candidates, and has no other side
effect: atoms and conformers are untouched, and every bond is either left
alone or set to the STEREOANY marker. -/
def DetectorSpec {C : Type} (detect : Mol C → Mol C) : Prop :=
  ∀ mol : Mol C,
    (detect mol).atoms = mol.atoms ∧
    (detect mol).conformers = mol.conformers ∧
    (detect mol).bonds.length = mol.bonds.length ∧
    ∀ i, i < mol.bonds.length →
      (detect mol).bonds.getD i default = mol.bonds.getD i default ∨
      (detect mol).bonds.getD i default = { stereo := BondStereo.STEREOANY }

/-
Store (heap) frame lemmas.
-/

/-- The store grew only by writes at or beyond the old frontier: every cell
below the old length is unchanged. -/
def StoreExtends {C : Type} (s₀ s : Store C) : Prop :=
  s₀.length ≤ s.length ∧ ∀ r, r < s₀.length → s.getD r default = s₀.getD r default

theorem storeExtends_refl {C : Type} (s : Store C) : StoreExtends s s :=
  ⟨le_refl _, fun _ _ => rfl⟩

theorem storeExtends_set {C : Type} {s₀ s : Store C} (h : StoreExtends s₀ s)
    {r : Nat} (hr : s₀.length ≤ r) (mol : Mol C) : StoreExtends s₀ (s.set r mol) := by
  refine ⟨by simpa using h.1, fun rr hrr => ?_⟩
  rw [getD_set_other _ _ (by omega)]
  exact h.2 rr hrr

theorem storeExtends_append {C : Type} {s₀ s : Store C} (h : StoreExtends s₀ s)
    (mol : Mol C) : StoreExtends s₀ (s ++ [mol]) := by
  have hlen := h.1
  refine ⟨by simp ; omega, fun rr hrr => ?_⟩
  rw [getD_append_low _ (by omega)]
  exact h.2 rr hrr

theorem driverLoopStore_extends {C : Type} [Inhabited C] (E : ExternalFns C)
    (options : StereoEnumerationOptions) (fs : List Flipper) :
    ∀ (bits : List Nat) (tmRef : Nat) (ni : Int) (s₀ s : Store C),
      StoreExtends s₀ s → s₀.length ≤ tmRef →
      StoreExtends s₀ (driverLoopStore E options fs tmRef bits ni s).1 := by
  intro bits
  induction bits with
  | nil => intro tmRef ni s₀ s hs _ ; exact hs
  | cons k rest ih =>
    intro tmRef ni s₀ s hs htm
    have hs1 : StoreExtends s₀ (s.set tmRef (applyBits fs k (s.getD tmRef default))) :=
      storeExtends_set hs htm _
    have hs2 : StoreExtends s₀
        ((s.set tmRef (applyBits fs k (s.getD tmRef default))) ++
          [(s.set tmRef (applyBits fs k (s.getD tmRef default))).getD tmRef default]) :=
      storeExtends_append hs1 _
    simp only [driverLoopStore]
    by_cases hemb : options.tryEmbedding
    · rw [if_pos hemb]
      set s1 := s.set tmRef (applyBits fs k (s.getD tmRef default)) with hs1def
      set s2 := s1 ++ [s1.getD tmRef default] with hs2def
      have hlen1 : s₀.length ≤ s1.length := hs1.1
      have hlen2 : s₀.length ≤ s2.length := hs2.1
      have hs3 : StoreExtends s₀ (s2 ++ [E.addHs (s2.getD s1.length default)]) :=
        storeExtends_append hs2 _
      set s3 := s2 ++ [E.addHs (s2.getD s1.length default)] with hs3def
      have hs4 : StoreExtends s₀
          (s3.set s2.length (E.embedMolecule (s3.getD s2.length default) k).2) :=
        storeExtends_set hs3 hlen2 _
      set s4 := s3.set s2.length (E.embedMolecule (s3.getD s2.length default) k).2 with hs4def
      by_cases hcid : 0 ≤ (E.embedMolecule (s3.getD s2.length default) k).1
      · rw [if_pos hcid]
        have hs5 : StoreExtends s₀
            (s4.set s1.length (attachConformer (s4.getD s1.length default)
              (s4.getD s2.length default))) :=
          storeExtends_set hs4 hlen1 _
        by_cases hcap : options.maxIsomers ≠ 0 ∧ ni + 1 ≥ options.maxIsomers
        · rw [if_pos hcap] ; exact hs5
        · rw [if_neg hcap]
          exact ih tmRef (ni + 1) s₀ _ hs5 htm
      · rw [if_neg hcid]
        exact ih tmRef ni s₀ s4 hs4 htm
    · rw [if_neg hemb]
      by_cases hcap : options.maxIsomers ≠ 0 ∧ ni + 1 ≥ options.maxIsomers
      · rw [if_pos hcap] ; exact hs2
      · rw [if_neg hcap]
        exact ih tmRef (ni + 1) s₀ _ hs2 htm

/-- The whole store-level enumeration only writes at or beyond the original
store frontier. -/
theorem enumerateStore_extends {C : Type} [Inhabited C] (E : ExternalFns C)
    (options : StereoEnumerationOptions) (fuel : Nat) (s : Store C) (mRef : Nat) :
    StoreExtends s (EnumerateStereoisomersStore E options fuel s mRef).1 := by
  simp only [EnumerateStereoisomersStore]
  have h1 : StoreExtends s (s ++ [s.getD mRef default]) :=
    storeExtends_append (storeExtends_refl s) _
  have h2 : StoreExtends s
      ((s ++ [s.getD mRef default]).set s.length
        (E.detect ((s ++ [s.getD mRef default]).getD s.length default))) :=
    storeExtends_set h1 (le_refl _) _
  by_cases hn : (getFlippers
      (((s ++ [s.getD mRef default]).set s.length
        (E.detect ((s ++ [s.getD mRef default]).getD s.length default))).getD
          s.length default) options).length = 0
  · rw [if_pos hn] ; exact h2
  · rw [if_neg hn]
    exact driverLoopStore_extends E options _ _ s.length 0 s _ h2 (le_refl _)

/-
Claim theorems.
-/

/-- C3: when the caller supplies no explicit random source, the sampling
seed is derived deterministically from the sorted multiset of
(degree, element-identity) pairs over all atoms, so any two molecules
whose pair multisets agree (in particular the same molecule, or the same
molecule under a consistent renumbering of its atoms) resolve to the same
random generator and hence to the same sequence of configuration indices
for every element count and iteration budget; a caller-supplied generator
instance is used directly, and a caller-supplied seed is passed to the
random.Random constructor. -/
theorem claim3_seed_determinism {C : Type} (E : ExternalFns C) (tm₁ tm₂ : Mol C)
    (g : RandGen) (s : Int) (n t : Nat)
    (hperm : (atomPairs tm₁).Perm (atomPairs tm₂)) :
    resolveRand E tm₁ none = resolveRand E tm₂ none ∧
    UniqueRandomBitsGenerator n (resolveRand E tm₁ none) t =
      UniqueRandomBitsGenerator n (resolveRand E tm₂ none) t ∧
    resolveRand E tm₁ (some (Sum.inl g)) = g ∧
    resolveRand E tm₁ (some (Sum.inr s)) = E.mkRandom s := by
  have h1 : resolveRand E tm₁ none = resolveRand E tm₂ none := by
    simp only [resolveRand]
    rw [sortedPairs_eq_of_perm hperm]
  exact ⟨h1, by rw [h1], rfl, rfl⟩

/-- C5: every candidate is built by copying the working graph after the
flips for its index were applied in place; because each flip writes an
absolute configuration, the candidate for index k after any processing
history js equals the candidate built from the pristine post-detection
base, and the whole remaining loop is insensitive to that history. -/
theorem claim5_fresh_copy {C : Type} [Inhabited C] (E : ExternalFns C)
    (m : Mol C) (options : StereoEnumerationOptions)
    (k : Nat) (js bits : List Nat) (ni : Int) :
    applyBits (getFlippers (E.detect m) options) k
        (tmAfter (getFlippers (E.detect m) options) (E.detect m) js) =
      applyBits (getFlippers (E.detect m) options) k (E.detect m) ∧
    driverLoop E options (getFlippers (E.detect m) options)
        (tmAfter (getFlippers (E.detect m) options) (E.detect m) js) bits ni =
      driverLoop E options (getFlippers (E.detect m) options) (E.detect m) bits ni := by
  have hnd := getFlippers_nodup (E.detect m) options
  exact ⟨applyBits_tmAfter hnd js _ k,
    driverLoop_congr_base E options _ bits _ _ ni
      (fun x => applyBits_tmAfter hnd js _ x)⟩

/-- C6: when the eligible-element list is empty, the enumeration yields
exactly one result, equal to the input molecule (the detection
collaborator, per its spec contract, can only have marked bonds as
STEREOANY, and any such mark would have produced an eligible element). -/
theorem claim6_degenerate {C : Type} [Inhabited C] (E : ExternalFns C)
    (m : Mol C) (options : StereoEnumerationOptions) (fuel : Nat)
    (hdet : DetectorSpec E.detect)
    (hflip : (getFlippers (E.detect m) options).length = 0) :
    EnumerateStereoisomers E m options fuel = [m] := by
  simp only [EnumerateStereoisomers, EnumerateStereoisomersFull, getFlippersFull]
  rw [if_pos hflip]
  obtain ⟨ha, hc, hbl, hb⟩ := hdet m
  have hdm : E.detect m = m := by
    apply molExt ha _ hc
    apply listEqOfGetD default hbl
    intro i hi
    have him : i < m.bonds.length := by omega
    rcases hb i him with h | h
    · exact h
    · exfalso
      have hmem : Flipper.bond i ∈ getFlippers (E.detect m) options := by
        apply (getFlippers_bond_mem (E.detect m) options i).mpr
        refine ⟨hi, ?_⟩
        rw [h]
        simp [bondEligible]
      have := List.ne_nil_of_mem hmem
      exact this (List.eq_nil_of_length_eq_zero hflip)
  rw [hdm]

/-- C8: in the heap model, the enumeration allocates a private copy of the
caller's molecule and confines every write (detection, flips, embedding,
conformer attachment) to that copy and to later allocations, so every cell
of the original store, in particular the caller's molecule, is unchanged. -/
theorem claim8_frame {C : Type} [Inhabited C] (E : ExternalFns C)
    (options : StereoEnumerationOptions) (fuel : Nat) (s : Store C) (mRef r : Nat)
    (hr : r < s.length) :
    (EnumerateStereoisomersStore E options fuel s mRef).1.getD r default =
      s.getD r default :=
  (enumerateStore_extends E options fuel s mRef).2 r hr

/-- C9 counterexample: constructing the options record with a negative
maxIsomers cap does not fail: StereoEnumerationOptions.__init__ performs
no validation, so construction succeeds and stores -1 verbatim. -/
theorem claim9_counterexample :
    StereoEnumerationOptionsInit false true (-1) none =
      Except.ok { tryEmbedding := false, onlyUnassigned := true,
                  maxIsomers := -1, rand := none } := rfl

/-- C9 amended: options construction never fails; every argument tuple,
valid or not, is stored verbatim in the returned record. -/
theorem claim9_no_validation (t o : Bool) (mi : Int)
    (r : Option (Sum RandGen Int)) :
    StereoEnumerationOptionsInit t o mi r =
      Except.ok { tryEmbedding := t, onlyUnassigned := o,
                  maxIsomers := mi, rand := r } := rfl

/-- C10: with a negative maxIsomers, embedding disabled and at least one
eligible element, the enumeration takes the random-sampling path and
yields exactly one isomer: the post-emission check numIsomers >= maxIsomers
is already satisfied after the first emission. -/
theorem claim10_negative_cap {C : Type} [Inhabited C] (E : ExternalFns C)
    (m : Mol C) (options : StereoEnumerationOptions) (fuel : Nat)
    (hne : options.tryEmbedding = false) (hneg : options.maxIsomers < 0)
    (hn : 1 ≤ (getFlippers (E.detect m) options).length) (hfuel : 1 ≤ fuel) :
    (EnumerateStereoisomers E m options fuel).length = 1 := by
  simp only [EnumerateStereoisomers, EnumerateStereoisomersFull, getFlippersFull]
  rw [if_neg (by omega)]
  have hpow : (0 : Int) <
      ((2 ^ (getFlippers (E.detect m) options).length : Nat) : Int) := by
    exact_mod_cast Nat.pos_pow_of_pos _ (by omega)
  have hbs : bitsource E (E.detect m) options
      (getFlippers (E.detect m) options).length fuel =
      UniqueRandomBitsGenerator (getFlippers (E.detect m) options).length
        (resolveRand E (E.detect m) options.rand) fuel := by
    rw [bitsource, if_neg]
    push_neg
    exact ⟨by omega, by omega⟩
  rw [hbs]
  have hlen := @urbg_length_pos (getFlippers (E.detect m) options).length
    (resolveRand E (E.detect m) options.rand) fuel hfuel
  obtain ⟨b, rest, hcons⟩ : ∃ b rest,
      UniqueRandomBitsGenerator (getFlippers (E.detect m) options).length
        (resolveRand E (E.detect m) options.rand) fuel = b :: rest := by
    cases hu : UniqueRandomBitsGenerator (getFlippers (E.detect m) options).length
        (resolveRand E (E.detect m) options.rand) fuel with
    | nil => rw [hu] at hlen ; simp at hlen
    | cons b rest => exact ⟨b, rest, rfl⟩
  rw [hcons]
  simp only [driverLoop, hne, Bool.false_eq_true, if_false]
  rw [if_pos ⟨by omega, by omega⟩]
  rfl

/-- C7: an atom is eligible iff it is flagged as a potential stereocenter
and (onlyUnassigned is false or its tag is unspecified); a bond is
eligible iff its stereo is not STEREONONE and (onlyUnassigned is false or
its stereo is the STEREOANY marker); the list is atoms in ascending index
order followed by bonds in ascending index order; and the element at list
position pos receives bit pos of the configuration index. -/
theorem claim7_eligibility {C : Type} [Inhabited C] (mol : Mol C)
    (options : StereoEnumerationOptions) :
    (∀ p, Flipper.atom p ∈ getFlippers mol options ↔
      p < mol.atoms.length ∧ (mol.atoms.getD p default).chiralityPossible = true ∧
        (options.onlyUnassigned = false ∨
          (mol.atoms.getD p default).chiralTag = ChiralType.CHI_UNSPECIFIED)) ∧
    (∀ p, Flipper.bond p ∈ getFlippers mol options ↔
      p < mol.bonds.length ∧ (mol.bonds.getD p default).stereo ≠ BondStereo.STEREONONE ∧
        (options.onlyUnassigned = false ∨
          (mol.bonds.getD p default).stereo = BondStereo.STEREOANY)) ∧
    (getFlippers mol options).Pairwise (fun f g2 => keyLT (flipKey f) (flipKey g2)) ∧
    (∀ (k pos p : Nat), (getFlippers mol options)[pos]? = some (Flipper.atom p) →
      ((applyBits (getFlippers mol options) k mol).atoms.getD p default).chiralTag =
        atomTagOf (k.testBit pos)) ∧
    (∀ (k pos p : Nat), (getFlippers mol options)[pos]? = some (Flipper.bond p) →
      ((applyBits (getFlippers mol options) k mol).bonds.getD p default).stereo =
        bondStereoOf (k.testBit pos)) := by
  refine ⟨?_, ?_, getFlippers_sortedKeys mol options, ?_, ?_⟩
  · intro p
    rw [getFlippers_atom_mem]
    simp [atomEligible, Bool.not_eq_true', decide_eq_true_eq, and_assoc]
  · intro p
    rw [getFlippers_bond_mem]
    simp [bondEligible, Bool.not_eq_true', decide_eq_true_eq, and_assoc]
  · intro k pos p hpos
    have hmem : Flipper.atom p ∈ getFlippers mol options := by
      obtain ⟨hlt, hval⟩ := List.getElem?_eq_some.mp hpos
      exact hval ▸ List.getElem_mem hlt
    have hp : p < mol.atoms.length :=
      ((getFlippers_atom_mem mol options p).mp hmem).1
    have huniq := nodupUniquePos (getFlippers_nodup mol options) hpos
    have e := applyBitsAux_atom_target k 0 mol default hpos huniq hp
    show ((applyBitsAux k (getFlippers mol options) 0 mol).atoms.getD p default).chiralTag =
      atomTagOf (k.testBit pos)
    rw [e]
    simp
  · intro k pos p hpos
    have hmem : Flipper.bond p ∈ getFlippers mol options := by
      obtain ⟨hlt, hval⟩ := List.getElem?_eq_some.mp hpos
      exact hval ▸ List.getElem_mem hlt
    have hp : p < mol.bonds.length :=
      ((getFlippers_bond_mem mol options p).mp hmem).1
    have huniq := nodupUniquePos (getFlippers_nodup mol options) hpos
    have e := applyBitsAux_bond_target k 0 mol default hpos huniq hp
    show ((applyBitsAux k (getFlippers mol options) 0 mol).bonds.getD p default).stereo =
      bondStereoOf (k.testBit pos)
    rw [e]
    simp

/-- C1: under the exhaustive-mode condition (maxIsomers == 0 or 2^n at
most maxIsomers) the driver selects the exhaustive generator, which
produces every integer in [0, 2^n) in strictly ascending order exactly
once; with embedding disabled the enumeration emits one candidate per
index, 2^n in total, and the configuration assignments of those indices
are pairwise distinct. -/
theorem claim1_exhaustive {C : Type} [Inhabited C] (E : ExternalFns C)
    (m : Mol C) (options : StereoEnumerationOptions) (fuel : Nat)
    (tm : Mol C) (fs : List Flipper) (n : Nat)
    (htm : tm = E.detect m) (hfs : fs = getFlippers tm options) (hn : n = fs.length)
    (hne : options.tryEmbedding = false)
    (hmode : options.maxIsomers = 0 ∨ ((2 ^ n : Nat) : Int) ≤ options.maxIsomers) :
    (RangeBitsGenerator n).Pairwise (· < ·) ∧
    (∀ k, k ∈ RangeBitsGenerator n ↔ k < 2 ^ n) ∧
    bitsource E tm options n fuel = RangeBitsGenerator n ∧
    EnumerateStereoisomers E m options fuel =
      (RangeBitsGenerator n).map (fun k => applyBits fs k tm) ∧
    (EnumerateStereoisomers E m options fuel).length = 2 ^ n ∧
    (RangeBitsGenerator n).Pairwise
      (fun j k2 => configAssignment n j ≠ configAssignment n k2) := by
  subst hn hfs htm
  have hmap : EnumerateStereoisomers E m options fuel =
      (RangeBitsGenerator (getFlippers (E.detect m) options).length).map
        (fun k => applyBits (getFlippers (E.detect m) options) k (E.detect m)) := by
    simp only [EnumerateStereoisomers, EnumerateStereoisomersFull, getFlippersFull]
    by_cases h0 : (getFlippers (E.detect m) options).length = 0
    · rw [if_pos h0]
      have hfs0 : getFlippers (E.detect m) options = [] :=
        List.eq_nil_of_length_eq_zero h0
      rw [h0, RangeBitsGenerator]
      simp [hfs0]
      rfl
    · rw [if_neg h0]
      rw [bitsource, if_pos hmode]
      apply driverLoop_noEmbed_map E options (getFlippers_nodup _ _) hne
      rcases hmode with hm | hm
      · exact Or.inl hm
      · refine Or.inr ?_
        rw [RangeBitsGenerator, List.length_range]
        push_cast at hm ⊢
        omega
  refine ⟨rbg_sorted _, fun k => rbg_mem _ k, by rw [bitsource, if_pos hmode], hmap, ?_, ?_⟩
  · rw [hmap]
    simp [RangeBitsGenerator]
  · apply List.Pairwise.imp_of_mem ?_ (rbg_sorted _)
    intro a b ha hb hl
    exact configAssignment_injOn ((rbg_mem _ a).mp ha) ((rbg_mem _ b).mp hb)
      (Nat.ne_of_lt hl)

/-- C2: in unique-random mode the generator never repeats a configuration
index within one run, only ever yields values in [0, 2^n), and yields at
most 2^n values no matter how long it runs; the enumeration emits at most
min(maxIsomers, 2^n) results. -/
theorem claim2_unique_random {C : Type} [Inhabited C] (E : ExternalFns C)
    (m : Mol C) (options : StereoEnumerationOptions) (fuel t n : Nat) (g : RandGen)
    (hn : n = (getFlippers (E.detect m) options).length)
    (h1 : 1 ≤ options.maxIsomers)
    (h2 : options.maxIsomers < ((2 ^ n : Nat) : Int)) :
    (UniqueRandomBitsGenerator n g t).Nodup ∧
    (∀ x ∈ UniqueRandomBitsGenerator n g t, x < 2 ^ n) ∧
    (UniqueRandomBitsGenerator n g t).length ≤ 2 ^ n ∧
    ((EnumerateStereoisomers E m options fuel).length : Int) ≤
      min options.maxIsomers ((2 ^ n : Nat) : Int) := by
  subst hn
  refine ⟨urbg_nodup g t, urbg_lt g t, urbg_length_le g t, ?_⟩
  have h0 : ¬ (getFlippers (E.detect m) options).length = 0 := by
    intro h0
    rw [h0] at h2
    simp at h2
    omega
  simp only [EnumerateStereoisomers, EnumerateStereoisomersFull, getFlippersFull]
  rw [if_neg h0]
  rw [bitsource, if_neg (by push_neg ; exact ⟨by omega, by omega⟩)]
  apply le_min
  · have hcap := driverLoop_length_le_cap E options (getFlippers (E.detect m) options)
      (UniqueRandomBitsGenerator (getFlippers (E.detect m) options).length
        (resolveRand E (E.detect m) options.rand) fuel)
      (E.detect m) 0 (by omega) (by omega)
    omega
  · have hbits := driverLoop_length_le_bits E options (getFlippers (E.detect m) options)
      (UniqueRandomBitsGenerator (getFlippers (E.detect m) options).length
        (resolveRand E (E.detect m) options.rand) fuel)
      (E.detect m) 0
    have hurbg := @urbg_length_le (getFlippers (E.detect m) options).length
      (resolveRand E (E.detect m) options.rand) fuel
    have : (driverLoop E options (getFlippers (E.detect m) options) (E.detect m)
        (UniqueRandomBitsGenerator (getFlippers (E.detect m) options).length
          (resolveRand E (E.detect m) options.rand) fuel) 0).1.length ≤
        2 ^ (getFlippers (E.detect m) options).length := le_trans hbits hurbg
    exact_mod_cast this

/-- C4 amended: with tryEmbedding enabled and at least one eligible
element, the driver calls the oracle exactly once per pulled configuration
index (the log's seed column is a duplicate-free, order-preserving
selection of the bit source), each call receives the hydrogen-added
candidate of its own index with the index as the deterministic seed, and
the emitted list consists of exactly the successful calls' candidates
(with their conformer attached); failed candidates are silently skipped.
In the degenerate n = 0 case the single result is emitted without any
embedding attempt. -/
theorem claim4_embedding {C : Type} [Inhabited C] (E : ExternalFns C)
    (m : Mol C) (options : StereoEnumerationOptions) (fuel : Nat)
    (tm : Mol C) (fs : List Flipper)
    (htm : tm = E.detect m) (hfs : fs = getFlippers tm options)
    (hemb : options.tryEmbedding = true) (hn : 1 ≤ fs.length) :
    ((EnumerateStereoisomersFull E m options fuel).2.map Prod.snd).Sublist
      (bitsource E tm options fs.length fuel) ∧
    ((EnumerateStereoisomersFull E m options fuel).2.map Prod.snd).Nodup ∧
    (∀ c ∈ (EnumerateStereoisomersFull E m options fuel).2,
      c.1 = E.addHs (applyBits fs c.2 tm)) ∧
    (EnumerateStereoisomersFull E m options fuel).1 =
      (EnumerateStereoisomersFull E m options fuel).2.filterMap (fun c =>
        if 0 ≤ (E.embedMolecule c.1 c.2).1 then
          some (attachConformer (applyBits fs c.2 tm) (E.embedMolecule c.1 c.2).2)
        else none) := by
  subst hfs htm
  have hnd := getFlippers_nodup (E.detect m) options
  have hfull : EnumerateStereoisomersFull E m options fuel =
      driverLoop E options (getFlippers (E.detect m) options) (E.detect m)
        (bitsource E (E.detect m) options
          (getFlippers (E.detect m) options).length fuel) 0 := by
    simp only [EnumerateStereoisomersFull, getFlippersFull]
    rw [if_neg (by omega)]
  obtain ⟨ha, hb, hc⟩ := driverLoop_embed_spec E options hnd hemb
    (bitsource E (E.detect m) options (getFlippers (E.detect m) options).length fuel)
    (E.detect m) (E.detect m) 0 (fun _ => rfl)
  rw [hfull]
  refine ⟨ha, ?_, hb, hc⟩
  have hbsnd : (bitsource E (E.detect m) options
      (getFlippers (E.detect m) options).length fuel).Nodup := by
    rw [bitsource]
    by_cases hm : options.maxIsomers = 0 ∨
      ((2 ^ (getFlippers (E.detect m) options).length : Nat) : Int) ≤ options.maxIsomers
    · rw [if_pos hm] ; exact rbg_nodup _
    · rw [if_neg hm] ; exact urbg_nodup _ _
  exact ha.nodup hbsnd

/-
Concrete fixtures for counterexamples and witnesses.
-/

/-- An external-collaborator bundle whose detection and AddHs are inert and
whose embedding oracle always succeeds. -/
def okE : ExternalFns Unit :=
  { detect := id, addHs := id, embedMolecule := fun mol _ => (0, mol),
    pyhash := fun l => (l.length : Int), mkRandom := fun s => fun t _ => s.natAbs + t }

/-- A bundle whose embedding oracle always fails. -/
def failE : ExternalFns Unit :=
  { detect := id, addHs := id, embedMolecule := fun mol _ => (-1, mol),
    pyhash := fun l => (l.length : Int), mkRandom := fun s => fun t _ => s.natAbs + t }

/-- A bundle whose embedding oracle succeeds exactly on even seeds. -/
def mixE : ExternalFns Unit :=
  { detect := id, addHs := id,
    embedMolecule := fun mol k => (if k % 2 = 0 then 0 else -1, mol),
    pyhash := fun l => (l.length : Int), mkRandom := fun s => fun t _ => s.natAbs + t }

/-- A concrete injected random generator. -/
def wg : RandGen := fun t _ => t

/-- The empty molecule. -/
def emptyMol : Mol Unit := { atoms := [], bonds := [], conformers := [] }

/-- Two unspecified potential stereocenters and one STEREOANY bond:
three eligible elements. -/
def twoAtomMol : Mol Unit :=
  { atoms := [
      { atomicNum := 6, degree := 2, chiralityPossible := true,
        chiralTag := ChiralType.CHI_UNSPECIFIED },
      { atomicNum := 6, degree := 3, chiralityPossible := true,
        chiralTag := ChiralType.CHI_UNSPECIFIED } ],
    bonds := [ { stereo := BondStereo.STEREOANY } ],
    conformers := [] }

/-- A molecule with an atom and a bond, neither eligible. -/
def noFreeMol : Mol Unit :=
  { atoms := [
      { atomicNum := 8, degree := 2, chiralityPossible := false,
        chiralTag := ChiralType.CHI_UNSPECIFIED } ],
    bonds := [ { stereo := BondStereo.STEREONONE } ],
    conformers := [] }

/-- Two-atom molecule. -/
def pairMolA : Mol Unit :=
  { atoms := [
      { atomicNum := 6, degree := 1, chiralityPossible := false,
        chiralTag := ChiralType.CHI_UNSPECIFIED },
      { atomicNum := 8, degree := 2, chiralityPossible := false,
        chiralTag := ChiralType.CHI_UNSPECIFIED } ],
    bonds := [], conformers := [] }

/-- The same two atoms indexed in the opposite order. -/
def pairMolB : Mol Unit :=
  { atoms := [
      { atomicNum := 8, degree := 2, chiralityPossible := false,
        chiralTag := ChiralType.CHI_UNSPECIFIED },
      { atomicNum := 6, degree := 1, chiralityPossible := false,
        chiralTag := ChiralType.CHI_UNSPECIFIED } ],
    bonds := [], conformers := [] }

/-- The source defaults. -/
def defaultOptions : StereoEnumerationOptions :=
  { tryEmbedding := false, onlyUnassigned := true, maxIsomers := 1024, rand := none }

/-- Defaults with a small cap, forcing unique-random mode on three elements. -/
def capOptions : StereoEnumerationOptions :=
  { tryEmbedding := false, onlyUnassigned := true, maxIsomers := 2, rand := none }

/-- Defaults with embedding enabled. -/
def embedOptions : StereoEnumerationOptions :=
  { tryEmbedding := true, onlyUnassigned := true, maxIsomers := 1024, rand := none }

/-- Defaults with a negative cap. -/
def negOptions : StereoEnumerationOptions :=
  { tryEmbedding := false, onlyUnassigned := true, maxIsomers := -5, rand := none }

/-- C4 counterexample: with tryEmbedding enabled, a molecule with no
eligible elements and an oracle that always fails, the enumeration still
emits one candidate while making no oracle call at all: the degenerate
n = 0 path yields the base copy before any embedding logic runs, so it is
not the case that every emitted candidate corresponds to a successful
embedding call. -/
theorem claim4_counterexample :
    (EnumerateStereoisomersFull failE emptyMol embedOptions 0).1 = [emptyMol] ∧
    (EnumerateStereoisomersFull failE emptyMol embedOptions 0).2 = [] ∧
    embedOptions.tryEmbedding = true ∧
    (∀ (mol : Mol Unit) (k : Nat), (failE.embedMolecule mol k).1 < 0) :=
  ⟨rfl, rfl, rfl, fun _ _ => show (-1 : Int) < 0 by decide⟩

/-
Witnesses: the claim theorems applied at concrete inputs.
-/

/-- Witness for C1: three eligible elements under the default cap give
exactly 2^3 emitted candidates. -/
theorem claim1_witness :
    (EnumerateStereoisomers okE twoAtomMol defaultOptions 0).length = 2 ^ 3 :=
  (claim1_exhaustive okE twoAtomMol defaultOptions 0 twoAtomMol
    (getFlippers twoAtomMol defaultOptions) 3 rfl rfl (by decide) rfl
    (Or.inr (by decide))).2.2.2.2.1

/-- Witness for C2: the cap 2 on a 3-element space bounds the output. -/
theorem claim2_witness :
    (UniqueRandomBitsGenerator 3 wg 5).Nodup ∧
    ((EnumerateStereoisomers okE twoAtomMol capOptions 4).length : Int) ≤
      min capOptions.maxIsomers ((2 ^ 3 : Nat) : Int) := by
  have h := claim2_unique_random okE twoAtomMol capOptions 4 5 3 wg (by decide)
    (by decide) (by decide)
  exact ⟨h.1, h.2.2.2⟩

/-- Witness for C3: reversing the atom order leaves the resolved random
source and the sampled sequence unchanged. -/
theorem claim3_witness :
    resolveRand okE pairMolA none = resolveRand okE pairMolB none ∧
    UniqueRandomBitsGenerator 2 (resolveRand okE pairMolA none) 4 =
      UniqueRandomBitsGenerator 2 (resolveRand okE pairMolB none) 4 ∧
    resolveRand okE pairMolA (some (Sum.inl wg)) = wg ∧
    resolveRand okE pairMolA (some (Sum.inr 7)) = okE.mkRandom 7 :=
  claim3_seed_determinism okE pairMolA pairMolB wg 7 2 4 (by decide)

/-- Witness for C4 (amended): an oracle succeeding on even seeds only. -/
theorem claim4_witness :
    ((EnumerateStereoisomersFull mixE twoAtomMol embedOptions 0).2.map Prod.snd).Sublist
      (bitsource mixE twoAtomMol embedOptions 3 0) ∧
    ((EnumerateStereoisomersFull mixE twoAtomMol embedOptions 0).2.map Prod.snd).Nodup := by
  have h := claim4_embedding mixE twoAtomMol embedOptions 0 twoAtomMol
    (getFlippers twoAtomMol embedOptions) rfl rfl rfl (by decide)
  exact ⟨h.1, h.2.1⟩

/-- Witness for C6: a molecule with no eligible element round-trips. -/
theorem claim6_witness :
    EnumerateStereoisomers okE noFreeMol defaultOptions 0 = [noFreeMol] :=
  claim6_degenerate okE noFreeMol defaultOptions 0
    (fun _ => ⟨rfl, rfl, rfl, fun _ _ => Or.inl rfl⟩) (by decide)

/-- Witness for C7: atom 0 is eligible and, at position 0 of the list,
receives bit 0 of the index. -/
theorem claim7_witness :
    Flipper.atom 0 ∈ getFlippers twoAtomMol defaultOptions ∧
    ((applyBits (getFlippers twoAtomMol defaultOptions) 1 twoAtomMol).atoms.getD 0
      default).chiralTag = ChiralType.CHI_TETRAHEDRAL_CW := by
  refine ⟨((claim7_eligibility twoAtomMol defaultOptions).1 0).mpr (by decide), ?_⟩
  have h := (claim7_eligibility twoAtomMol defaultOptions).2.2.2.1 1 0 0 (by decide)
  exact h.trans (by decide)

/-- Witness for C8: the caller's cell in a one-molecule store is unchanged. -/
theorem claim8_witness :
    (EnumerateStereoisomersStore okE defaultOptions 2 [twoAtomMol] 0).1.getD 0 default =
      [twoAtomMol].getD 0 default :=
  claim8_frame okE defaultOptions 2 [twoAtomMol] 0 0 (by decide)

/-- Witness for C10: a negative cap yields exactly one isomer. -/
theorem claim10_witness :
    (EnumerateStereoisomers okE twoAtomMol negOptions 2).length = 1 :=
  claim10_negative_cap okE twoAtomMol negOptions 2 rfl (by decide) (by decide) (by decide)

end RDKit
